import Mathlib

/-!
Shallow embedding of `generate_drum_midi.py`: the duration classifier
(`get_duration_for_sound`), the mapping normalizer (`load_drum_mapping`),
the sequencer (the final event-building pass of `generate_drum_midi`,
building absolute-tick events, sorting them, converting to delta times and
appending the end-of-track marker), and the timing-report emitter (the
`.timing.txt` writer).  Python floats are modelled as exact rationals;
Python's arbitrary-precision integers as `Int`.  Python's stable
`list.sort` is modelled by `List.insertionSort`, which is also stable, and
a stable sort's output is uniquely determined by the key order.
-/

namespace DrumMidi

/-- Python's `s.startswith(pat)` on lists of characters. -/
def chListPre : List Char → List Char → Bool
  | [], _ => true
  | _ :: _, [] => false
  | a :: as, b :: bs => a == b && chListPre as bs

/-- Substring occurrence test: does `pat` occur contiguously in `l`? -/
def chListSub : List Char → List Char → Bool
  | pat, [] => pat.isEmpty
  | pat, c :: rest => chListPre pat (c :: rest) || chListSub pat rest

/-- Python's `word in s` where `s` is an already-lowercased name held as a
character list. -/
def pyIn (word : String) (s : List Char) : Bool := chListSub word.data s

/-- Python's `name.lower()` (ASCII names), as a character list. -/
def pyLower (name : String) : List Char := name.data.map Char.toLower

/-- Embedding of `get_duration_for_sound` (src lines 31-60): the cascading
keyword rules over the lowercased name, first match wins. -/
def get_duration_for_sound (name : String) : ℚ :=
  let nl := pyLower name
  if pyIn "crash" nl || pyIn "china" nl || pyIn "splash" nl then 5
  else if pyIn "ride" nl || pyIn "cymbal" nl then 4
  else if pyIn "open" nl && pyIn "hat" nl then 3
  else if pyIn "hat" nl then 2
  else if pyIn "tom" nl || pyIn "floor" nl then 5/2
  else if pyIn "kick" nl || pyIn "snare" nl || pyIn "clap" nl ||
          pyIn "stick" nl || pyIn "cowbell" nl || pyIn "claves" nl then 2
  else if pyIn "tambourine" nl || pyIn "shaker" nl || pyIn "vibraslap" nl then 5/2
  else 2

/-- Drum triple `(note, name, duration)` as produced by `load_drum_mapping`. -/
abbrev Drum := Int × String × ℚ

/-- Array-form mapping item `{"note": n, "name": s}` with both fields present. -/
structure MappingItem where
  note : Int
  name : String
  deriving DecidableEq, Repr

/-- Raw JSON mapping: array form (list of items) or legacy object form
(string-keyed note-to-name association, in insertion order). -/
inductive RawMapping where
  | arr : List MappingItem → RawMapping
  | obj : List (String × String) → RawMapping

/-- Decimal digit accumulation for `int(str)` parsing. -/
def parseDigitsAux : List Char → Nat → Option Nat
  | [], acc => some acc
  | c :: rest, acc =>
      if c.isDigit then parseDigitsAux rest (acc * 10 + (c.toNat - 48)) else none

/-- Python's `int(str)` on a clean decimal string: optional sign followed by
at least one digit; anything else raises (`none`). -/
def pyIntOfString (s : String) : Option Int :=
  match s.data with
  | [] => none
  | '-' :: rest =>
      if rest.isEmpty then none else (parseDigitsAux rest 0).map fun n => -(n : Int)
  | '+' :: rest =>
      if rest.isEmpty then none else (parseDigitsAux rest 0).map fun n => (n : Int)
  | l => (parseDigitsAux l 0).map fun n => (n : Int)

/-- Conversion loop of the object form: `int(note_str)` on each key, in
order; a malformed key makes the whole load fail (Python `ValueError`). -/
def convObj : List (String × String) → Option (List Drum)
  | [] => some []
  | (k, name) :: rest =>
    match pyIntOfString k, convObj rest with
    | some n, some l => some ((n, name, get_duration_for_sound name) :: l)
    | _, _ => none

/-- Key order used by `drum_list.sort(key=lambda x: x[0])`. -/
def noteLeP (a b : Drum) : Prop := a.1 ≤ b.1

instance : DecidableRel noteLeP := fun a b => by
  unfold noteLeP; infer_instance

/-- Embedding of `load_drum_mapping` (src lines 63-96): array form keeps the
input order verbatim; object form converts keys to integers and sorts
ascending by note with a stable sort. -/
def load_drum_mapping : RawMapping → Option (List Drum)
  | .arr items =>
      some (items.map fun it => (it.note, it.name, get_duration_for_sound it.name))
  | .obj pairs => (convObj pairs).map fun l => l.insertionSort noteLeP

/-- Python's `int()` applied to a (here exactly represented) float:
truncation toward zero. -/
def pyInt (x : ℚ) : Int := if 0 ≤ x then ⌊x⌋ else ⌈x⌉

/-- Per-entry spacing in ticks (src lines 212-214):
`int(base_duration * spacing_multiplier * (bpm/60) * ticks_per_beat)`. -/
def duration_ticks (d mult : ℚ) (bpm tpb : Int) : Int :=
  pyInt (d * mult * ((bpm : ℚ) / 60) * (tpb : ℚ))

/-- Fixed 100 ms note length in ticks (src line 215):
`int(0.1 * (bpm/60) * ticks_per_beat)`. -/
def note_length_ticks (bpm tpb : Int) : Int :=
  pyInt ((1/10 : ℚ) * ((bpm : ℚ) / 60) * (tpb : ℚ))

/-- MIDI channel message kind. -/
inductive MsgKind where
  | note_on : MsgKind
  | note_off : MsgKind
  deriving DecidableEq, Repr

/-- Timed event; `tick` is an absolute tick before delta conversion and a
delta afterwards. -/
structure Ev where
  tick : Int
  kind : MsgKind
  note : Int
  velocity : Int
  deriving DecidableEq, Repr

/-- Event-building loop (src lines 210-220): starting from the one-beat
lead-in, each entry contributes a NoteOn at the running tick and a NoteOff
`note_length_ticks` later, then advances the running tick by its spacing. -/
def buildEventsAux (mult : ℚ) (vel bpm tpb : Int) : List Drum → Int → List Ev
  | [], _ => []
  | (note, _, d) :: rest, cur =>
      ⟨cur, .note_on, note, vel⟩ ::
      ⟨cur + note_length_ticks bpm tpb, .note_off, note, 0⟩ ::
      buildEventsAux mult vel bpm tpb rest (cur + duration_ticks d mult bpm tpb)

/-- Full unsorted event list; `current_tick` starts at `lead_in_ticks =
ticks_per_beat`. -/
def buildEvents (drums : List Drum) (mult : ℚ) (vel bpm tpb : Int) : List Ev :=
  buildEventsAux mult vel bpm tpb drums tpb

/-- Sort-numeral of an event kind: the `0 if x[1] == 'note_off' else 1` part
of the Python sort key. -/
def kindNum (k : MsgKind) : Int := if k = .note_off then 0 else 1

/-- Key order of `events.sort(key=lambda x: (x[0], 0 if x[1] == 'note_off'
else 1))`: lexicographic on (tick, off-before-on). -/
def evLeP (a b : Ev) : Prop :=
  a.tick < b.tick ∨ (a.tick = b.tick ∧ kindNum a.kind ≤ kindNum b.kind)

instance : DecidableRel evLeP := fun a b => by
  unfold evLeP; infer_instance

/-- Sorted event list (src line 223); stable sort by the lexicographic key. -/
def sortedEvents (drums : List Drum) (mult : ℚ) (vel bpm tpb : Int) : List Ev :=
  (buildEvents drums mult vel bpm tpb).insertionSort evLeP

/-- Delta conversion loop (src lines 226-233): each event's time becomes its
absolute tick minus the previous event's absolute tick (`last_tick` starts
at 0). -/
def toDeltas : List Ev → Int → List Ev
  | [], _ => []
  | e :: rest, last => { e with tick := e.tick - last } :: toDeltas rest e.tick

/-- Delta-encoded event stream emitted by the sequencer. -/
def deltaEvents (drums : List Drum) (mult : ℚ) (vel bpm tpb : Int) : List Ev :=
  toDeltas (sortedEvents drums mult vel bpm tpb) 0

/-- Value of `last_tick` after the delta loop: the last sorted event's
absolute tick, or 0 when there are no events. -/
def lastTick (l : List Ev) : Int := ((l.getLast?).map Ev.tick).getD 0

/-- Absolute tick of the `end_of_track` marker, appended with delta
`ticks_per_beat` after the last event (src line 236). -/
def endTick (drums : List Drum) (mult : ℚ) (vel bpm tpb : Int) : Int :=
  lastTick (sortedEvents drums mult vel bpm tpb) + tpb

/-- Cumulative summation recovering absolute ticks from deltas. -/
def cumTicks : List Ev → Int → List Int
  | [], _ => []
  | e :: rest, acc => (acc + e.tick) :: cumTicks rest (acc + e.tick)

/-- Timing record of the `.timing.txt` report. -/
structure TimingRecord where
  index : Nat
  note : Int
  name : String
  start_seconds : ℚ
  duration_seconds : ℚ
  deriving DecidableEq, Repr

/-- Report loop (src lines 259-263): `current_time` starts at the one-beat
lead-in `60/bpm` and advances by each entry's scaled duration. -/
def timingReportAux (mult : ℚ) : List Drum → Nat → ℚ → List TimingRecord
  | [], _, _ => []
  | (note, name, d) :: rest, i, cur =>
      ⟨i, note, name, cur, d * mult⟩ ::
      timingReportAux mult rest (i + 1) (cur + d * mult)

/-- Timing report: one record per entry, in entry order. -/
def timingReport (drums : List Drum) (mult : ℚ) (bpm : Int) : List TimingRecord :=
  timingReportAux mult drums 0 (60 / (bpm : ℚ))

/-- Round half to even, the rounding used by Python's fixed-point float
formatting. -/
def roundHalfEven (x : ℚ) : Int :=
  if x - ⌊x⌋ < 1/2 then ⌊x⌋
  else if x - ⌊x⌋ > 1/2 then ⌊x⌋ + 1
  else if ⌊x⌋ % 2 = 0 then ⌊x⌋ else ⌊x⌋ + 1

/-- Left-pad a digit string with zeros to 4 characters. -/
def pad4 (s : String) : String :=
  String.mk (List.replicate (4 - s.length) '0') ++ s

/-- Python's `f"{x:.4f}"`. -/
def fmt4 (x : ℚ) : String :=
  let n := roundHalfEven (x * 10000)
  let sign := if n < 0 then "-" else ""
  let m := n.natAbs
  sign ++ toString (m / 10000) ++ "." ++ pad4 (toString (m % 10000))

/-- Formatting of one report line (src line 262):
`f"{i},{note},{name},{current_time:.4f},{duration:.4f}"`. -/
def timingLine (r : TimingRecord) : String :=
  toString r.index ++ "," ++ toString r.note ++ "," ++ r.name ++ "," ++
  fmt4 r.start_seconds ++ "," ++ fmt4 r.duration_seconds

/-- Closed-form absolute tick of entry `i`'s NoteOn: lead-in plus the
spacing of all earlier entries. -/
def onTick (drums : List Drum) (mult : ℚ) (bpm tpb : Int) (i : Nat) : Int :=
  tpb + ((drums.take i).map fun x => duration_ticks x.2.2 mult bpm tpb).sum

/-- Closed-form start time of entry `i` in the timing report: one-beat
lead-in plus the scaled durations of all earlier entries. -/
def reportStart (drums : List Drum) (mult : ℚ) (bpm : Int) (i : Nat) : ℚ :=
  60 / (bpm : ℚ) + ((drums.take i).map fun x => x.2.2 * mult).sum

/-- Seconds per tick: `60 / (bpm * ticks_per_beat)`. -/
def secondsPerTick (bpm tpb : Int) : ℚ := 60 / ((bpm : ℚ) * (tpb : ℚ))

/-- Duration classifier transcribed from the specification's ordered rule
list (spec section 4.1), for comparison with the source's
`get_duration_for_sound`. -/
def classifySpec (name : String) : ℚ :=
  let nl := pyLower name
  if pyIn "crash" nl || pyIn "china" nl || pyIn "splash" nl then 5
  else if pyIn "ride" nl || pyIn "cymbal" nl then 4
  else if pyIn "open" nl && pyIn "hat" nl then 3
  else if pyIn "hat" nl then 2
  else if pyIn "tom" nl || pyIn "floor" nl then 5/2
  else if pyIn "kick" nl || pyIn "snare" nl || pyIn "clap" nl ||
          pyIn "stick" nl || pyIn "cowbell" nl || pyIn "claves" nl then 2
  else if pyIn "tambourine" nl || pyIn "shaker" nl || pyIn "vibraslap" nl then 5/2
  else 2

/-! ### Basic lemmas about the tick arithmetic -/

theorem pyInt_eq_floor {x : ℚ} (h : 0 ≤ x) : pyInt x = ⌊x⌋ := if_pos h

theorem pyInt_nonneg {x : ℚ} (h : 0 ≤ x) : 0 ≤ pyInt x := by
  rw [pyInt_eq_floor h]
  exact Int.floor_nonneg.2 h

theorem durationArg_nonneg {d mult : ℚ} {bpm tpb : Int} (hd : 0 ≤ d) (hm : 0 ≤ mult)
    (hb : 0 ≤ bpm) (ht : 0 ≤ tpb) :
    0 ≤ d * mult * ((bpm : ℚ) / 60) * (tpb : ℚ) := by
  have hb' : (0 : ℚ) ≤ (bpm : ℚ) := by exact_mod_cast hb
  have ht' : (0 : ℚ) ≤ (tpb : ℚ) := by exact_mod_cast ht
  have : (0 : ℚ) ≤ (bpm : ℚ) / 60 := by positivity
  exact mul_nonneg (mul_nonneg (mul_nonneg hd hm) this) ht'

theorem duration_ticks_nonneg {d mult : ℚ} {bpm tpb : Int} (hd : 0 ≤ d) (hm : 0 ≤ mult)
    (hb : 0 ≤ bpm) (ht : 0 ≤ tpb) : 0 ≤ duration_ticks d mult bpm tpb :=
  pyInt_nonneg (durationArg_nonneg hd hm hb ht)

theorem note_length_ticks_nonneg {bpm tpb : Int} (hb : 0 ≤ bpm) (ht : 0 ≤ tpb) :
    0 ≤ note_length_ticks bpm tpb := by
  have hb' : (0 : ℚ) ≤ (bpm : ℚ) := by exact_mod_cast hb
  have ht' : (0 : ℚ) ≤ (tpb : ℚ) := by exact_mod_cast ht
  exact pyInt_nonneg (by positivity)

/-! ### The sort key is a total preorder -/

theorem evLeP_total : ∀ a b : Ev, evLeP a b ∨ evLeP b a := by
  intro a b
  rcases lt_trichotomy a.tick b.tick with h | h | h
  · exact Or.inl (Or.inl h)
  · rcases le_total (kindNum a.kind) (kindNum b.kind) with hk | hk
    · exact Or.inl (Or.inr ⟨h, hk⟩)
    · exact Or.inr (Or.inr ⟨h.symm, hk⟩)
  · exact Or.inr (Or.inl h)

theorem evLeP_trans : ∀ a b c : Ev, evLeP a b → evLeP b c → evLeP a c := by
  intro a b c hab hbc
  rcases hab with h1 | ⟨h1, k1⟩ <;> rcases hbc with h2 | ⟨h2, k2⟩
  · exact Or.inl (h1.trans h2)
  · exact Or.inl (h2 ▸ h1)
  · exact Or.inl (h1 ▸ h2)
  · exact Or.inr ⟨h1.trans h2, k1.trans k2⟩

instance : IsTotal Ev evLeP := ⟨evLeP_total⟩

instance : IsTrans Ev evLeP := ⟨fun a b c => evLeP_trans a b c⟩

theorem evLeP_tick_le {a b : Ev} (h : evLeP a b) : a.tick ≤ b.tick := by
  rcases h with h | ⟨h, _⟩
  · exact h.le
  · exact h.le

/-! ### Structure of the built event list -/

theorem buildEventsAux_length (mult : ℚ) (vel bpm tpb : Int) :
    ∀ (drums : List Drum) (cur : Int),
      (buildEventsAux mult vel bpm tpb drums cur).length = 2 * drums.length
  | [], _ => rfl
  | (note, name, d) :: rest, cur => by
    simp [buildEventsAux, buildEventsAux_length mult vel bpm tpb rest]
    ring

theorem buildEventsAux_getElem (mult : ℚ) (vel bpm tpb : Int) :
    ∀ (drums : List Drum) (cur : Int) (i : Nat) (x : Drum), drums[i]? = some x →
      (buildEventsAux mult vel bpm tpb drums cur)[2 * i]? =
        some ⟨cur + ((drums.take i).map fun y => duration_ticks y.2.2 mult bpm tpb).sum,
          .note_on, x.1, vel⟩ ∧
      (buildEventsAux mult vel bpm tpb drums cur)[2 * i + 1]? =
        some ⟨cur + ((drums.take i).map fun y => duration_ticks y.2.2 mult bpm tpb).sum +
          note_length_ticks bpm tpb, .note_off, x.1, 0⟩
  | [], _, i, x => by simp
  | (note, name, d) :: rest, cur, 0, x => by
    intro hx
    simp only [List.getElem?_cons_zero, Option.some.injEq] at hx
    subst hx
    simp [buildEventsAux]
  | (note, name, d) :: rest, cur, i + 1, x => by
    intro hx
    simp only [List.getElem?_cons_succ] at hx
    have ih := buildEventsAux_getElem mult vel bpm tpb rest
      (cur + duration_ticks d mult bpm tpb) i x hx
    have e2 : 2 * (i + 1) = 2 * i + 1 + 1 := by ring
    rw [e2]
    simp only [buildEventsAux, List.getElem?_cons_succ]
    simpa [add_assoc] using ih

theorem buildEventsAux_vel (mult : ℚ) (vel bpm tpb : Int) :
    ∀ (drums : List Drum) (cur : Int) (e : Ev), e ∈ buildEventsAux mult vel bpm tpb drums cur →
      (e.kind = .note_off → e.velocity = 0) ∧ (e.kind = .note_on → e.velocity = vel)
  | [], _, e => by simp [buildEventsAux]
  | (note, name, d) :: rest, cur, e => by
    intro he
    simp only [buildEventsAux, List.mem_cons] at he
    rcases he with rfl | rfl | he
    · exact ⟨by simp, by simp⟩
    · exact ⟨by simp, by simp⟩
    · exact buildEventsAux_vel mult vel bpm tpb rest _ e he

theorem buildEventsAux_tick_ge (mult : ℚ) (vel bpm tpb : Int)
    (hL : 0 ≤ note_length_ticks bpm tpb) :
    ∀ (drums : List Drum) (cur : Int),
      (∀ x ∈ drums, 0 ≤ duration_ticks x.2.2 mult bpm tpb) →
      ∀ e ∈ buildEventsAux mult vel bpm tpb drums cur, cur ≤ e.tick
  | [], _, _, e => by simp [buildEventsAux]
  | (note, name, d) :: rest, cur, hdt, e => by
    intro he
    simp only [buildEventsAux, List.mem_cons] at he
    rcases he with rfl | rfl | he
    · exact le_refl _
    · exact le_add_of_nonneg_right hL
    · have hd0 : 0 ≤ duration_ticks d mult bpm tpb :=
        hdt (note, name, d) (List.mem_cons_self _ _)
      have := buildEventsAux_tick_ge mult vel bpm tpb hL rest
        (cur + duration_ticks d mult bpm tpb)
        (fun x hx => hdt x (List.mem_cons_of_mem _ hx)) e he
      omega

/-! ### Delta conversion -/

theorem cumTicks_toDeltas : ∀ (l : List Ev) (last : Int),
    cumTicks (toDeltas l last) last = l.map Ev.tick
  | [], _ => rfl
  | e :: rest, last => by
    simp only [toDeltas, cumTicks, List.map_cons]
    have h : last + (e.tick - last) = e.tick := by ring
    rw [h, cumTicks_toDeltas rest e.tick]

theorem toDeltas_nonneg : ∀ (l : List Ev) (last : Int),
    List.Chain' (fun a b : Ev => a.tick ≤ b.tick) l →
    (∀ e ∈ l.head?, last ≤ e.tick) →
    ∀ e ∈ toDeltas l last, 0 ≤ e.tick
  | [], _, _, _, e => by simp [toDeltas]
  | e0 :: rest, last, hc, hh, e => by
    intro he
    simp only [toDeltas, List.mem_cons] at he
    have h0 : last ≤ e0.tick := hh e0 (by simp)
    rcases he with rfl | he
    · simpa using h0
    · exact toDeltas_nonneg rest e0.tick hc.tail
        (fun x hx => by
          cases rest with
          | nil => simp at hx
          | cons y ys =>
            simp only [List.head?_cons, Option.mem_def, Option.some.injEq] at hx
            subst hx
            exact List.chain'_cons.1 hc |>.1) e he

theorem toDeltas_fields : ∀ (l : List Ev) (last : Int) (e : Ev), e ∈ toDeltas l last →
    ∃ e0 ∈ l, e.kind = e0.kind ∧ e.velocity = e0.velocity ∧ e.note = e0.note
  | [], _, e => by simp [toDeltas]
  | e0 :: rest, last, e => by
    intro he
    simp only [toDeltas, List.mem_cons] at he
    rcases he with rfl | he
    · exact ⟨e0, by simp⟩
    · obtain ⟨e1, h1, h2⟩ := toDeltas_fields rest e0.tick e he
      exact ⟨e1, List.mem_cons_of_mem _ h1, h2⟩

theorem toDeltas_length : ∀ (l : List Ev) (last : Int), (toDeltas l last).length = l.length
  | [], _ => rfl
  | _ :: rest, _ => by simp [toDeltas, toDeltas_length rest]

/-! ### Sorted event stream -/

theorem sortedEvents_pairwise (drums : List Drum) (mult : ℚ) (vel bpm tpb : Int) :
    List.Pairwise evLeP (sortedEvents drums mult vel bpm tpb) :=
  List.sorted_insertionSort evLeP _

theorem sortedEvents_tick_chain (drums : List Drum) (mult : ℚ) (vel bpm tpb : Int) :
    List.Chain' (fun a b : Ev => a.tick ≤ b.tick) (sortedEvents drums mult vel bpm tpb) :=
  ((sortedEvents_pairwise drums mult vel bpm tpb).imp fun h => evLeP_tick_le h).chain'

theorem sortedEvents_mem (drums : List Drum) (mult : ℚ) (vel bpm tpb : Int) {e : Ev} :
    e ∈ sortedEvents drums mult vel bpm tpb ↔ e ∈ buildEvents drums mult vel bpm tpb :=
  List.mem_insertionSort evLeP

theorem sortedEvents_tick_ge (drums : List Drum) (mult : ℚ) (vel bpm tpb : Int)
    (hb : 0 ≤ bpm) (ht : 0 ≤ tpb) (hm : 0 ≤ mult) (hd : ∀ x ∈ drums, 0 ≤ x.2.2) :
    ∀ e ∈ sortedEvents drums mult vel bpm tpb, tpb ≤ e.tick := by
  intro e he
  exact buildEventsAux_tick_ge mult vel bpm tpb (note_length_ticks_nonneg hb ht) drums tpb
    (fun x hx => duration_ticks_nonneg (hd x hx) hm hb ht) e
    ((sortedEvents_mem drums mult vel bpm tpb).1 he)

/-! ### Timing report structure -/

theorem timingReportAux_length (mult : ℚ) :
    ∀ (drums : List Drum) (i0 : Nat) (cur : ℚ),
      (timingReportAux mult drums i0 cur).length = drums.length
  | [], _, _ => rfl
  | _ :: rest, i0, cur => by
    simp [timingReportAux, timingReportAux_length mult rest]

theorem timingReportAux_getElem (mult : ℚ) :
    ∀ (drums : List Drum) (i0 : Nat) (cur : ℚ) (i : Nat) (x : Drum), drums[i]? = some x →
      (timingReportAux mult drums i0 cur)[i]? =
        some ⟨i0 + i, x.1, x.2.1,
          cur + ((drums.take i).map fun y => y.2.2 * mult).sum, x.2.2 * mult⟩
  | [], _, _, i, x => by simp
  | (note, name, d) :: rest, i0, cur, 0, x => by
    intro hx
    simp only [List.getElem?_cons_zero, Option.some.injEq] at hx
    subst hx
    simp [timingReportAux]
  | (note, name, d) :: rest, i0, cur, i + 1, x => by
    intro hx
    simp only [List.getElem?_cons_succ] at hx
    have ih := timingReportAux_getElem mult rest (i0 + 1) (cur + d * mult) i x hx
    simp only [timingReportAux, List.getElem?_cons_succ]
    rw [ih]
    simp only [List.take_succ_cons, List.map_cons, List.sum_cons, Option.some.injEq,
      TimingRecord.mk.injEq]
    refine ⟨by omega, trivial, trivial, by ring, trivial⟩

/-! ### Loader lemmas -/

instance : IsTotal Drum noteLeP := ⟨fun a b => Int.le_total a.1 b.1⟩

instance : IsTrans Drum noteLeP := ⟨fun _ _ _ hab hbc => Int.le_trans hab hbc⟩

theorem convObj_durations : ∀ (pairs : List (String × String)) (l : List Drum),
    convObj pairs = some l → ∀ e ∈ l, e.2.2 = get_duration_for_sound e.2.1
  | [], l => by
    intro h e he
    simp only [convObj, Option.some.injEq] at h
    subst h
    simp at he
  | (k, name) :: rest, l => by
    intro h e he
    simp only [convObj] at h
    cases hk : pyIntOfString k with
    | none => rw [hk] at h; exact absurd h (by simp)
    | some n =>
      cases hc : convObj rest with
      | none => rw [hk, hc] at h; exact absurd h (by simp)
      | some c =>
        rw [hk, hc] at h
        simp only [Option.some.injEq] at h
        subst h
        rcases List.mem_cons.1 he with rfl | he'
        · rfl
        · exact convObj_durations rest c hc e he'

/-! ### Sums over take-lists -/

theorem take_sum_succ {α : Type} [AddCommMonoid α] (f : Drum → α) (l : List Drum) (i : Nat)
    (x : Drum) (hx : l[i]? = some x) :
    ((l.take (i + 1)).map f).sum = ((l.take i).map f).sum + f x := by
  rw [List.take_succ, hx]
  simp

theorem intCast_list_sum : ∀ l : List Int, ((l.sum : Int) : ℚ) = (l.map fun n => ((n : Int) : ℚ)).sum
  | [] => by simp
  | x :: r => by
    simp only [List.sum_cons, List.map_cons]
    push_cast [intCast_list_sum r]
    ring

theorem list_sum_mul (b : ℚ) : ∀ l : List ℚ, l.sum * b = (l.map fun x => x * b).sum
  | [] => by simp
  | x :: r => by simp [list_sum_mul b r, add_mul]

/-- Core drift computation: a list of nonnegative reals, each replaced by
its floor, loses between 0 and one tick per element. -/
theorem drift_calc (spt : ℚ) (hspt : 0 ≤ spt) :
    ∀ l : List ℚ, (∀ x ∈ l, 0 ≤ x) →
      0 ≤ (l.map fun x => x * spt).sum - (l.map fun x => ((⌊x⌋ : ℤ) : ℚ) * spt).sum ∧
      (l.map fun x => x * spt).sum - (l.map fun x => ((⌊x⌋ : ℤ) : ℚ) * spt).sum ≤
        (l.length : ℚ) * spt
  | [] => by simp
  | x :: r => by
    intro hl
    have ih := drift_calc spt hspt r fun y hy => hl y (List.mem_cons_of_mem _ hy)
    have h1 : ((⌊x⌋ : ℤ) : ℚ) ≤ x := Int.floor_le x
    have h2 : x - ((⌊x⌋ : ℤ) : ℚ) < 1 := by
      have := Int.lt_floor_add_one x
      linarith
    have h3 : 0 ≤ (x - ((⌊x⌋ : ℤ) : ℚ)) * spt := mul_nonneg (by linarith) hspt
    have h4 : (x - ((⌊x⌋ : ℤ) : ℚ)) * spt ≤ 1 * spt :=
      mul_le_mul_of_nonneg_right (by linarith) hspt
    simp only [List.map_cons, List.sum_cons, List.length_cons]
    push_cast
    constructor
    · nlinarith [ih.1]
    · nlinarith [ih.2]

/-! ### Concrete evaluations used by several witnesses -/

theorem pyInt_intCast (n : Int) : pyInt ((n : ℚ)) = n := by
  unfold pyInt
  rcases le_or_lt 0 n with h | h
  · rw [if_pos (by exact_mod_cast h), Int.floor_intCast]
  · rw [if_neg (by exact_mod_cast not_le.2 h), Int.ceil_intCast]

theorem dt_kick : duration_ticks 2 1 120 480 = 1920 := by
  unfold duration_ticks
  rw [pyInt_eq_floor (by norm_num)]
  norm_num

theorem nl_120_480 : note_length_ticks 120 480 = 96 := by
  unfold note_length_ticks
  rw [pyInt_eq_floor (by norm_num)]
  norm_num

theorem kick_sorted : sortedEvents [(36, "Kick", 2)] 1 127 120 480 =
    [⟨480, .note_on, 36, 127⟩, ⟨576, .note_off, 36, 0⟩] := by
  simp [sortedEvents, buildEvents, buildEventsAux, dt_kick, nl_120_480,
    List.insertionSort, List.orderedInsert, evLeP, kindNum]

theorem kick_deltas : deltaEvents [(36, "Kick", 2)] 1 127 120 480 =
    [⟨480, .note_on, 36, 127⟩, ⟨96, .note_off, 36, 0⟩] := by
  rw [deltaEvents, kick_sorted]
  simp [toDeltas]

theorem kick_end : endTick [(36, "Kick", 2)] 1 127 120 480 = 1056 := by
  rw [endTick, kick_sorted]
  simp [lastTick]

theorem dt_bad : duration_ticks 2 (-1) 120 480 = -1920 := by
  unfold duration_ticks
  have h : (2 : ℚ) * (-1) * ((((120 : Int)) : ℚ) / 60) * (((480 : Int)) : ℚ) =
      (((-1920 : Int)) : ℚ) := by push_cast; norm_num
  rw [h, pyInt_intCast]

theorem bad_deltas : deltaEvents [(36, "Kick", 2)] (-1) 200 120 480 =
    [⟨480, .note_on, 36, 200⟩, ⟨96, .note_off, 36, 0⟩] := by
  simp [deltaEvents, sortedEvents, buildEvents, buildEventsAux, dt_bad, nl_120_480,
    List.insertionSort, List.orderedInsert, evLeP, kindNum, toDeltas]

theorem fmt4_half : fmt4 (1/2) = "0.5000" := by
  have h : roundHalfEven ((1/2 : ℚ) * 10000) = 5000 := by
    unfold roundHalfEven
    norm_num
  simp only [fmt4, h]
  decide

theorem fmt4_two : fmt4 2 = "2.0000" := by
  have h : roundHalfEven ((2 : ℚ) * 10000) = 20000 := by
    unfold roundHalfEven
    norm_num
  simp only [fmt4, h]
  decide

theorem kick_report : timingReport [(36, "Kick", 2)] 1 120 = [⟨0, 36, "Kick", 1/2, 2⟩] := by
  simp only [timingReport, timingReportAux, TimingRecord.mk.injEq]
  norm_num

/-! ### Claim theorems -/

/-- C9: the duration classifier is a total pure function equal to the
spec's ordered first-match rule list, and takes the stated values on the
five sample names. -/
theorem classifier_rules_and_values :
    (∀ name : String, get_duration_for_sound name = classifySpec name) ∧
    get_duration_for_sound "Crash Cymbal 1" = 5 ∧
    get_duration_for_sound "Closed Hi-Hat" = 2 ∧
    get_duration_for_sound "Open Hi-Hat" = 3 ∧
    get_duration_for_sound "Kick" = 2 ∧
    get_duration_for_sound "Unknown Weird Name" = 2 :=
  ⟨fun _ => rfl, by decide, by decide, by decide, by decide, by decide⟩

/-- C8: normalize on array form preserves input order exactly and keeps
duplicate note numbers distinct; on object form it converts string keys to
integers and returns the entries sorted ascending by note; in both forms
each entry's base_duration is the classifier's value for its name. -/
theorem normalize_forms :
    (∀ items : List MappingItem, load_drum_mapping (.arr items) =
      some (items.map fun it => (it.note, it.name, get_duration_for_sound it.name))) ∧
    load_drum_mapping (.arr [⟨36, "Kick"⟩, ⟨36, "Kick2"⟩]) =
      some [(36, "Kick", 2), (36, "Kick2", 2)] ∧
    load_drum_mapping (.obj [("36", "Kick"), ("38", "Snare")]) =
      some [(36, "Kick", 2), (38, "Snare", 2)] ∧
    (∀ (pairs : List (String × String)) (l : List Drum),
      load_drum_mapping (.obj pairs) = some l →
        List.Sorted noteLeP l ∧ ∃ c, convObj pairs = some c ∧ l.Perm c) ∧
    (∀ (raw : RawMapping) (l : List Drum), load_drum_mapping raw = some l →
      ∀ e ∈ l, e.2.2 = get_duration_for_sound e.2.1) := by
  refine ⟨fun items => rfl, by decide, by decide, ?_, ?_⟩
  · intro pairs l h
    simp only [load_drum_mapping] at h
    cases hc : convObj pairs with
    | none => rw [hc] at h; exact absurd h (by simp)
    | some c =>
      rw [hc] at h
      simp only [Option.map_some', Option.some.injEq] at h
      subst h
      exact ⟨List.sorted_insertionSort noteLeP c, c, rfl, List.perm_insertionSort noteLeP c⟩
  · intro raw l h e he
    cases raw with
    | arr items =>
      simp only [load_drum_mapping, Option.some.injEq] at h
      subst h
      obtain ⟨it, _, rfl⟩ := List.mem_map.1 he
      rfl
    | obj pairs =>
      simp only [load_drum_mapping] at h
      cases hc : convObj pairs with
      | none => rw [hc] at h; exact absurd h (by simp)
      | some c =>
        rw [hc] at h
        simp only [Option.map_some', Option.some.injEq] at h
        subst h
        exact convObj_durations pairs c hc e
          ((List.perm_insertionSort noteLeP c).mem_iff.1 he)

theorem normalize_forms_witness :
    load_drum_mapping (.obj [("36", "Kick"), ("38", "Snare")]) =
      some [(36, "Kick", 2), (38, "Snare", 2)] ∧
    (List.Sorted noteLeP [((36 : Int), "Kick", (2 : ℚ)), (38, "Snare", 2)] ∧
      ∃ c, convObj [("36", "Kick"), ("38", "Snare")] = some c ∧
        List.Perm [((36 : Int), "Kick", (2 : ℚ)), (38, "Snare", 2)] c) :=
  ⟨by decide, normalize_forms.2.2.2.1 [("36", "Kick"), ("38", "Snare")]
    [((36 : Int), "Kick", (2 : ℚ)), (38, "Snare", 2)] (by decide)⟩

/-- C4 counterexample: the sequencer truncates rather than rounding to
nearest: at bpm 121, tpb 480 the 100 ms note length is 96 ticks where
round-to-nearest gives 97, and at base_duration 2, multiplier 9/10, bpm 60,
tpb 1 the spacing is 1 tick where round-to-nearest gives 2. -/
theorem rounding_mode_cx :
    note_length_ticks 121 480 = 96 ∧
    round ((1/10 : ℚ) * (121 / 60) * 480) = 97 ∧
    duration_ticks 2 (9/10) 60 1 = 1 ∧
    round ((2 : ℚ) * (9/10) * (60 / 60) * 1) = 2 := by
  refine ⟨?_, ?_, ?_, ?_⟩
  · unfold note_length_ticks
    rw [pyInt_eq_floor (by norm_num)]
    norm_num
  · rw [round_eq]
    norm_num
  · unfold duration_ticks
    rw [pyInt_eq_floor (by norm_num)]
    norm_num
  · rw [round_eq]
    norm_num

/-- C4 amended: for a valid (nonnegative) configuration the sequencer
computes duration ticks and note length by Python `int()` truncation, which
on these nonnegative operands is the floor, not round-to-nearest. -/
theorem ticks_by_truncation (d mult : ℚ) (bpm tpb : Int)
    (hd : 0 ≤ d) (hm : 0 ≤ mult) (hb : 0 ≤ bpm) (ht : 0 ≤ tpb) :
    duration_ticks d mult bpm tpb = ⌊d * mult * ((bpm : ℚ) / 60) * (tpb : ℚ)⌋ ∧
    note_length_ticks bpm tpb = ⌊(1/10 : ℚ) * ((bpm : ℚ) / 60) * (tpb : ℚ)⌋ := by
  constructor
  · exact pyInt_eq_floor (durationArg_nonneg hd hm hb ht)
  · refine pyInt_eq_floor ?_
    have hb' : (0 : ℚ) ≤ (bpm : ℚ) := by exact_mod_cast hb
    have ht' : (0 : ℚ) ≤ (tpb : ℚ) := by exact_mod_cast ht
    positivity

theorem ticks_by_truncation_witness :
    (0 : ℚ) ≤ 2 ∧ (0 : ℚ) ≤ 1 ∧ (0 : Int) ≤ 120 ∧ (0 : Int) ≤ 480 ∧
    (duration_ticks 2 1 120 480 = ⌊(2 : ℚ) * 1 * ((((120 : Int)) : ℚ) / 60) * (((480 : Int)) : ℚ)⌋ ∧
     note_length_ticks 120 480 = ⌊(1/10 : ℚ) * ((((120 : Int)) : ℚ) / 60) * (((480 : Int)) : ℚ)⌋) :=
  ⟨by norm_num, by norm_num, by norm_num, by norm_num,
    ticks_by_truncation 2 1 120 480 (by norm_num) (by norm_num) (by norm_num) (by norm_num)⟩

/-- C5 counterexample: with spacing_multiplier -1 and velocity 200, both
outside the documented ranges, sequencing succeeds and emits a NoteOn
carrying velocity 200 instead of failing with InvalidConfiguration. -/
theorem no_validation_cx :
    deltaEvents [(36, "Kick", 2)] (-1) 200 120 480 =
      [⟨480, .note_on, 36, 200⟩, ⟨96, .note_off, 36, 0⟩] ∧
    ∃ e ∈ deltaEvents [(36, "Kick", 2)] (-1) 200 120 480,
      e.kind = .note_on ∧ e.velocity = 200 := by
  refine ⟨bad_deltas, ⟨480, .note_on, 36, 200⟩, ?_, rfl, rfl⟩
  rw [bad_deltas]
  exact List.mem_cons_self _ _

/-- C5 amended: the sequencer performs no input validation: for every
configuration, valid or not, it totally produces a delta event stream with
exactly two events per entry. -/
theorem sequencer_total (drums : List Drum) (mult : ℚ) (vel bpm tpb : Int) :
    (deltaEvents drums mult vel bpm tpb).length = 2 * drums.length := by
  rw [deltaEvents, toDeltas_length, sortedEvents, List.length_insertionSort, buildEvents,
    buildEventsAux_length]

/-- C2 counterexample: for the single entry with base_duration 2.0,
multiplier 1.0, bpm 120, tpb 480, the NoteOff lands at tick 576 (not
480+48) and the end-of-track marker at tick 1056 (not 480+960+480). -/
theorem single_entry_cx :
    (sortedEvents [(36, "Kick", 2)] 1 127 120 480).map Ev.tick = [480, 576] ∧
    ¬ (576 : Int) = 480 + 48 ∧
    endTick [(36, "Kick", 2)] 1 127 120 480 = 1056 ∧
    ¬ (1056 : Int) = 480 + 960 + 480 := by
  refine ⟨?_, by decide, kick_end, by decide⟩
  rw [kick_sorted]
  rfl

/-- C2 amended: sequencing the single entry with base_duration 2.0,
multiplier 1.0, bpm 120, tpb 480 yields a NoteOn at absolute tick 480 (the
lead-in), its NoteOff at 480+96 (100 ms is 96 ticks here), and the
end-of-stream marker at 480+96+480 (one beat past the final event). -/
theorem single_entry_stream :
    sortedEvents [(36, "Kick", 2)] 1 127 120 480 =
      [⟨480, .note_on, 36, 127⟩, ⟨576, .note_off, 36, 0⟩] ∧
    deltaEvents [(36, "Kick", 2)] 1 127 120 480 =
      [⟨480, .note_on, 36, 127⟩, ⟨96, .note_off, 36, 0⟩] ∧
    endTick [(36, "Kick", 2)] 1 127 120 480 = 480 + 96 + 480 := by
  refine ⟨kick_sorted, kick_deltas, ?_⟩
  rw [kick_end]
  decide

/-- C10: in every stream the sequencer produces, NoteOff events carry
velocity 0 and the caller's velocity is applied exactly to NoteOn events. -/
theorem noteoff_velocity_zero (drums : List Drum) (mult : ℚ) (vel bpm tpb : Int) :
    ∀ e ∈ deltaEvents drums mult vel bpm tpb,
      (e.kind = .note_off → e.velocity = 0) ∧ (e.kind = .note_on → e.velocity = vel) := by
  intro e he
  obtain ⟨e0, h0, hk, hv, _⟩ := toDeltas_fields _ 0 e he
  have h1 := buildEventsAux_vel mult vel bpm tpb drums tpb e0
    ((sortedEvents_mem drums mult vel bpm tpb).1 h0)
  rw [hk, hv]
  exact h1

theorem noteoff_velocity_zero_witness :
    (Ev.mk 96 .note_off 36 0) ∈ deltaEvents [(36, "Kick", 2)] 1 127 120 480 ∧
    (((Ev.mk 96 .note_off 36 0).kind = .note_off → (Ev.mk 96 .note_off 36 0).velocity = 0) ∧
     ((Ev.mk 96 .note_off 36 0).kind = .note_on → (Ev.mk 96 .note_off 36 0).velocity = 127)) :=
  ⟨by rw [kick_deltas]; exact List.mem_cons_of_mem _ (List.mem_cons_self _ _),
   noteoff_velocity_zero [(36, "Kick", 2)] 1 127 120 480 _
     (by rw [kick_deltas]; exact List.mem_cons_of_mem _ (List.mem_cons_self _ _))⟩

/-- C3: the sorted event list is pairwise ordered by (tick ascending, NoteOff
before NoteOn at equal ticks); cumulative summation of the emitted deltas
recovers exactly the sorted absolute ticks; every emitted delta is
non-negative; and the recovered tick sequence is non-decreasing. -/
theorem delta_stream_monotone (drums : List Drum) (mult : ℚ) (vel bpm tpb : Int)
    (hb : 0 < bpm) (ht : 0 < tpb) (hm : 0 ≤ mult) (hd : ∀ x ∈ drums, 0 ≤ x.2.2) :
    List.Pairwise evLeP (sortedEvents drums mult vel bpm tpb) ∧
    cumTicks (deltaEvents drums mult vel bpm tpb) 0 =
      (sortedEvents drums mult vel bpm tpb).map Ev.tick ∧
    (∀ e ∈ deltaEvents drums mult vel bpm tpb, 0 ≤ e.tick) ∧
    List.Chain' (fun a b : Int => a ≤ b)
      (cumTicks (deltaEvents drums mult vel bpm tpb) 0) := by
  have hchain := sortedEvents_tick_chain drums mult vel bpm tpb
  refine ⟨sortedEvents_pairwise drums mult vel bpm tpb, cumTicks_toDeltas _ 0, ?_, ?_⟩
  · refine toDeltas_nonneg _ 0 hchain ?_
    intro e he
    have hmem : e ∈ sortedEvents drums mult vel bpm tpb := List.mem_of_mem_head? he
    have := sortedEvents_tick_ge drums mult vel bpm tpb hb.le ht.le hm hd e hmem
    omega
  · simp only [deltaEvents]
    rw [cumTicks_toDeltas, List.chain'_map]
    exact hchain

theorem delta_stream_monotone_witness :
    (0 : Int) < 120 ∧ (0 : Int) < 480 ∧ (0 : ℚ) ≤ 1 ∧
    (∀ x ∈ [((36 : Int), "Kick", (2 : ℚ))], 0 ≤ x.2.2) ∧
    (List.Pairwise evLeP (sortedEvents [(36, "Kick", 2)] 1 127 120 480) ∧
     cumTicks (deltaEvents [(36, "Kick", 2)] 1 127 120 480) 0 =
       (sortedEvents [(36, "Kick", 2)] 1 127 120 480).map Ev.tick ∧
     (∀ e ∈ deltaEvents [(36, "Kick", 2)] 1 127 120 480, 0 ≤ e.tick) ∧
     List.Chain' (fun a b : Int => a ≤ b)
       (cumTicks (deltaEvents [(36, "Kick", 2)] 1 127 120 480) 0)) :=
  ⟨by norm_num, by norm_num, by norm_num,
   by intro x hx; rcases List.mem_singleton.1 hx with rfl; norm_num,
   delta_stream_monotone [(36, "Kick", 2)] 1 127 120 480 (by norm_num) (by norm_num)
     (by norm_num) (by intro x hx; rcases List.mem_singleton.1 hx with rfl; norm_num)⟩

/-- C6: for consecutive entries i and i+1, whenever entry i's spacing is at
least the note length, entry i's NoteOff absolute tick is at most entry
i+1's NoteOn absolute tick, so the triggers do not overlap. -/
theorem consecutive_no_overlap (drums : List Drum) (mult : ℚ) (vel bpm tpb : Int)
    (i : Nat) (x y : Drum) (hx : drums[i]? = some x) (hy : drums[i + 1]? = some y)
    (hL : note_length_ticks bpm tpb ≤ duration_ticks x.2.2 mult bpm tpb) :
    ∃ eoff eon,
      (buildEvents drums mult vel bpm tpb)[2 * i + 1]? = some eoff ∧
      (buildEvents drums mult vel bpm tpb)[2 * (i + 1)]? = some eon ∧
      eoff.kind = .note_off ∧ eon.kind = .note_on ∧ eoff.tick ≤ eon.tick := by
  obtain ⟨_, h2⟩ := buildEventsAux_getElem mult vel bpm tpb drums tpb i x hx
  obtain ⟨h3, _⟩ := buildEventsAux_getElem mult vel bpm tpb drums tpb (i + 1) y hy
  refine ⟨_, _, h2, h3, rfl, rfl, ?_⟩
  simp only
  rw [take_sum_succ (fun z => duration_ticks z.2.2 mult bpm tpb) drums i x hx]
  omega

theorem consecutive_no_overlap_witness :
    ([((36 : Int), "Kick", (2 : ℚ)), (38, "Snare", 2)][0]? = some (36, "Kick", 2)) ∧
    ([((36 : Int), "Kick", (2 : ℚ)), (38, "Snare", 2)][0 + 1]? = some (38, "Snare", 2)) ∧
    note_length_ticks 120 480 ≤ duration_ticks 2 1 120 480 ∧
    (∃ eoff eon,
      (buildEvents [(36, "Kick", 2), (38, "Snare", 2)] 1 127 120 480)[2 * 0 + 1]? = some eoff ∧
      (buildEvents [(36, "Kick", 2), (38, "Snare", 2)] 1 127 120 480)[2 * (0 + 1)]? = some eon ∧
      eoff.kind = .note_off ∧ eon.kind = .note_on ∧ eoff.tick ≤ eon.tick) :=
  ⟨rfl, rfl, by rw [nl_120_480, dt_kick]; decide,
   consecutive_no_overlap [(36, "Kick", 2), (38, "Snare", 2)] 1 127 120 480 0
     (36, "Kick", 2) (38, "Snare", 2) rfl rfl (by rw [nl_120_480, dt_kick]; decide)⟩

/-- C7: the report holds one record per entry in entry order; record i has
index i, the entry's note and name, start_seconds equal to the one-beat
lead-in 60/bpm plus the scaled durations of all earlier entries, and
duration_seconds equal to base_duration times the multiplier; each line is
rendered as index,note,name,start(4 decimals),duration(4 decimals). -/
theorem timing_report_fields (drums : List Drum) (mult : ℚ) (bpm : Int) :
    (timingReport drums mult bpm).length = drums.length ∧
    (∀ (i : Nat) (x : Drum), drums[i]? = some x →
      (timingReport drums mult bpm)[i]? =
        some ⟨i, x.1, x.2.1, reportStart drums mult bpm i, x.2.2 * mult⟩) ∧
    (∀ r : TimingRecord, timingLine r =
      toString r.index ++ "," ++ toString r.note ++ "," ++ r.name ++ "," ++
      fmt4 r.start_seconds ++ "," ++ fmt4 r.duration_seconds) ∧
    (timingReport [(36, "Kick", 2)] 1 120).map timingLine = ["0,36,Kick,0.5000,2.0000"] := by
  refine ⟨timingReportAux_length mult drums 0 _, ?_, fun r => rfl, ?_⟩
  · intro i x hx
    have h := timingReportAux_getElem mult drums 0 (60 / (bpm : ℚ)) i x hx
    simpa [reportStart] using h
  · rw [kick_report]
    simp only [List.map_cons, List.map_nil, timingLine, fmt4_half, fmt4_two]
    decide

theorem timing_report_fields_witness :
    ([((36 : Int), "Kick", (2 : ℚ))][0]? = some (36, "Kick", 2)) ∧
    (timingReport [(36, "Kick", 2)] 1 120)[0]? =
      some ⟨0, 36, "Kick", reportStart [(36, "Kick", 2)] 1 120 0, 2 * 1⟩ :=
  ⟨rfl, (timing_report_fields [(36, "Kick", 2)] 1 120).2.1 0 (36, "Kick", 2) rfl⟩

/-- C1 counterexample: for the single Kick entry at bpm 120, tpb 480,
multiplier 1, summing all duration_seconds plus the one-beat lead-in gives
2.5 s, while the final event of the emitted stream — the end-of-stream
marker — sits at 1056 ticks = 1.1 s; the gap of 1.4 s far exceeds one
tick's worth (1/960 s). -/
theorem timing_roundtrip_cx :
    ((timingReport [(36, "Kick", 2)] 1 120).map TimingRecord.duration_seconds).sum +
      (60 : ℚ) / 120 = 5/2 ∧
    ((endTick [(36, "Kick", 2)] 1 127 120 480 : Int) : ℚ) * secondsPerTick 120 480 = 11/10 ∧
    secondsPerTick 120 480 = 1/960 ∧
    ¬ |(5/2 : ℚ) - 11/10| ≤ 1/960 := by
  refine ⟨?_, ?_, ?_, ?_⟩
  · rw [kick_report]
    simp
    norm_num
  · rw [kick_end]
    unfold secondsPerTick
    norm_num
  · unfold secondsPerTick
    norm_num
  · rw [abs_of_nonneg (by norm_num)]
    norm_num

/-- Truncation drift of a drum list: the exact scaled durations in seconds
minus the truncated tick spacings converted back to seconds lie between 0
and one tick per entry. -/
theorem drift_core (mult : ℚ) (bpm tpb : Int) (hb : 0 < bpm) (ht : 0 < tpb) (hm : 0 ≤ mult) :
    ∀ l : List Drum, (∀ z ∈ l, 0 ≤ z.2.2) →
      0 ≤ (l.map fun y => y.2.2 * mult).sum -
          (((l.map fun y => duration_ticks y.2.2 mult bpm tpb).sum : Int) : ℚ) *
            secondsPerTick bpm tpb ∧
      (l.map fun y => y.2.2 * mult).sum -
          (((l.map fun y => duration_ticks y.2.2 mult bpm tpb).sum : Int) : ℚ) *
            secondsPerTick bpm tpb ≤ (l.length : ℚ) * secondsPerTick bpm tpb
  | [] => fun _ => by simp
  | y :: r => fun hl => by
    have hbQ : (0 : ℚ) < (bpm : ℚ) := by exact_mod_cast hb
    have htQ : (0 : ℚ) < (tpb : ℚ) := by exact_mod_cast ht
    have hspt0 : 0 ≤ secondsPerTick bpm tpb := by unfold secondsPerTick; positivity
    have ih := drift_core mult bpm tpb hb ht hm r fun z hz => hl z (List.mem_cons_of_mem _ hz)
    have hy : 0 ≤ y.2.2 := hl y (List.mem_cons_self _ _)
    have hexnn : 0 ≤ y.2.2 * mult * ((bpm : ℚ) / 60) * (tpb : ℚ) :=
      durationArg_nonneg hy hm hb.le ht.le
    have hdt : duration_ticks y.2.2 mult bpm tpb =
        ⌊y.2.2 * mult * ((bpm : ℚ) / 60) * (tpb : ℚ)⌋ := pyInt_eq_floor hexnn
    have hexspt : y.2.2 * mult =
        y.2.2 * mult * ((bpm : ℚ) / 60) * (tpb : ℚ) * secondsPerTick bpm tpb := by
      unfold secondsPerTick
      field_simp
      ring
    have hfr1 : ((⌊y.2.2 * mult * ((bpm : ℚ) / 60) * (tpb : ℚ)⌋ : ℤ) : ℚ) ≤
        y.2.2 * mult * ((bpm : ℚ) / 60) * (tpb : ℚ) := Int.floor_le _
    have hfr2 : y.2.2 * mult * ((bpm : ℚ) / 60) * (tpb : ℚ) -
        ((⌊y.2.2 * mult * ((bpm : ℚ) / 60) * (tpb : ℚ)⌋ : ℤ) : ℚ) < 1 := by
      have := Int.lt_floor_add_one (y.2.2 * mult * ((bpm : ℚ) / 60) * (tpb : ℚ))
      linarith
    have h3 : 0 ≤ (y.2.2 * mult * ((bpm : ℚ) / 60) * (tpb : ℚ) -
        ((⌊y.2.2 * mult * ((bpm : ℚ) / 60) * (tpb : ℚ)⌋ : ℤ) : ℚ)) * secondsPerTick bpm tpb :=
      mul_nonneg (by linarith) hspt0
    have h4 : (y.2.2 * mult * ((bpm : ℚ) / 60) * (tpb : ℚ) -
        ((⌊y.2.2 * mult * ((bpm : ℚ) / 60) * (tpb : ℚ)⌋ : ℤ) : ℚ)) * secondsPerTick bpm tpb ≤
        1 * secondsPerTick bpm tpb := mul_le_mul_of_nonneg_right (by linarith) hspt0
    rw [sub_mul] at h3 h4
    simp only [List.map_cons, List.sum_cons, List.length_cons, hdt]
    obtain ⟨ih1, ih2⟩ := ih
    push_cast at ih1 ih2 ⊢
    rw [add_mul]
    constructor
    · linarith [ih1, h3, hexspt]
    · linarith [ih2, h4, hexspt]

/-- C1 amended: for each entry i the NoteOn tick re-derived from the emitted
stream (the lead-in plus the truncated spacings of earlier entries) agrees
with the report's start_seconds to within one tick per preceding entry —
the difference lies in [0, i ticks] — not within one tick overall; the
round-trip sum conjunct is refuted by the counterexample because the end
marker sits one beat after the final NoteOff rather than after the last
entry's full spacing. -/
theorem timing_drift_bound (drums : List Drum) (mult : ℚ) (vel bpm tpb : Int)
    (hb : 0 < bpm) (ht : 0 < tpb) (hm : 0 ≤ mult) (hd : ∀ z ∈ drums, 0 ≤ z.2.2)
    (i : Nat) (x : Drum) (hx : drums[i]? = some x) :
    (buildEvents drums mult vel bpm tpb)[2 * i]? =
      some ⟨onTick drums mult bpm tpb i, .note_on, x.1, vel⟩ ∧
    0 ≤ reportStart drums mult bpm i -
        ((onTick drums mult bpm tpb i : Int) : ℚ) * secondsPerTick bpm tpb ∧
    reportStart drums mult bpm i -
        ((onTick drums mult bpm tpb i : Int) : ℚ) * secondsPerTick bpm tpb ≤
      (i : ℚ) * secondsPerTick bpm tpb := by
  have hbQ : (0 : ℚ) < (bpm : ℚ) := by exact_mod_cast hb
  have htQ : (0 : ℚ) < (tpb : ℚ) := by exact_mod_cast ht
  have hspt0 : 0 ≤ secondsPerTick bpm tpb := by unfold secondsPerTick; positivity
  have hlead : (60 : ℚ) / (bpm : ℚ) - ((tpb : Int) : ℚ) * secondsPerTick bpm tpb = 0 := by
    unfold secondsPerTick
    field_simp
    ring
  have hcore := drift_core mult bpm tpb hb ht hm (drums.take i)
    fun z hz => hd z (List.take_subset i drums hz)
  have hlen : (((drums.take i).length : Nat) : ℚ) ≤ (i : ℚ) := by
    have h := List.length_take i drums
    have : (drums.take i).length ≤ i := by omega
    exact_mod_cast this
  have hlen2 : (((drums.take i).length : Nat) : ℚ) * secondsPerTick bpm tpb ≤
      (i : ℚ) * secondsPerTick bpm tpb := mul_le_mul_of_nonneg_right hlen hspt0
  refine ⟨?_, ?_, ?_⟩
  · have h := (buildEventsAux_getElem mult vel bpm tpb drums tpb i x hx).1
    simpa [buildEvents, onTick] using h
  · unfold reportStart onTick
    have hc1 := hcore.1
    push_cast at hc1 ⊢
    rw [add_mul]
    linarith [hc1, hlead]
  · unfold reportStart onTick
    have hc2 := hcore.2
    push_cast at hc2 hlen2 ⊢
    rw [add_mul]
    linarith [hc2, hlead, hlen2]

theorem timing_drift_bound_witness :
    (0 : Int) < 120 ∧ (0 : Int) < 480 ∧ (0 : ℚ) ≤ 1 ∧
    (∀ z ∈ [((36 : Int), "Kick", (2 : ℚ)), (38, "Snare", 2)], 0 ≤ z.2.2) ∧
    ([((36 : Int), "Kick", (2 : ℚ)), (38, "Snare", 2)][1]? = some (38, "Snare", 2)) ∧
    ((buildEvents [(36, "Kick", 2), (38, "Snare", 2)] 1 127 120 480)[2 * 1]? =
      some ⟨onTick [(36, "Kick", 2), (38, "Snare", 2)] 1 120 480 1, .note_on, 38, 127⟩ ∧
    0 ≤ reportStart [(36, "Kick", 2), (38, "Snare", 2)] 1 120 1 -
        ((onTick [(36, "Kick", 2), (38, "Snare", 2)] 1 120 480 1 : Int) : ℚ) *
          secondsPerTick 120 480 ∧
    reportStart [(36, "Kick", 2), (38, "Snare", 2)] 1 120 1 -
        ((onTick [(36, "Kick", 2), (38, "Snare", 2)] 1 120 480 1 : Int) : ℚ) *
          secondsPerTick 120 480 ≤ ((1 : Nat) : ℚ) * secondsPerTick 120 480) :=
  ⟨by norm_num, by norm_num, by norm_num,
   by intro z hz; rcases List.mem_cons.1 hz with rfl | hz'
      · norm_num
      · rcases List.mem_singleton.1 hz' with rfl; norm_num,
   rfl,
   timing_drift_bound [(36, "Kick", 2), (38, "Snare", 2)] 1 127 120 480
     (by norm_num) (by norm_num) (by norm_num)
     (by intro z hz; rcases List.mem_cons.1 hz with rfl | hz'
         · norm_num
         · rcases List.mem_singleton.1 hz' with rfl; norm_num)
     1 (38, "Snare", 2) rfl⟩

end DrumMidi
